import Mathlib

/-!
Shallow embedding of the domain-fair frontier scheduler of the linkdepth
repository: the round-robin priority queue of queues.py, the admission cap of
middleware.py, the logging scheduler of scheduler.py, and the per-domain crawl
state of linkdepth.py, together with theorems settling the specification
claims about them.
-/

namespace LinkdepthModel

/-- A request as the scheduler queues see it: the partition key stored in
`request.meta['scheduler_slot']` (a missing key gives Python `None`, hence
`Option`), plus a numeric tag so that distinct requests can be told apart. -/
structure QRequest where
  slot : Option String
  tag : Nat
deriving DecidableEq

/-- Modelled from the spec: the per-partition priority queue used by
`queues.RoundRobinPriorityQueue` is `queuelib.PriorityQueue` over the LIFO
bucket queues the repository configures (`queues.DiskQueue` extends
`PickleLifoDiskQueue`, and the spec describes the Overflow Store as a
per-partition LIFO byte queue); neither class is part of src/. That queue keeps
one bucket per numeric priority and pops from the bucket with the smallest
priority number; a LIFO bucket yields its most recently pushed entry. The
buckets are flattened into one list of (priority, request) pairs with the most
recently pushed pair first, so popping takes the first listed pair that carries
the minimal priority. -/
abbrev SubPQ := List (Int × QRequest)

def SubPQ.push (q : SubPQ) (r : QRequest) (p : Int) : SubPQ := (p, r) :: q

/-- Smallest priority number present in a sub-queue (`curprio`). -/
def minPrio : SubPQ → Option Int
  | [] => none
  | (p, _) :: rest =>
    match minPrio rest with
    | none => some p
    | some m => some (min p m)

/-- Remove the first listed pair carrying priority `m`. -/
def extractAtPrio (m : Int) : SubPQ → Option QRequest × SubPQ
  | [] => (none, [])
  | (p, r) :: rest =>
    if p = m then (some r, rest)
    else
      let res := extractAtPrio m rest
      (res.1, (p, r) :: res.2)

def SubPQ.pop (q : SubPQ) : Option QRequest × SubPQ :=
  match minPrio q with
  | none => (none, q)
  | some m => extractAtPrio m q

/-- `queues.RoundRobinPriorityQueue`: `slots` embeds the `_slots` deque of
partition keys and `pqueues` embeds the slot -> priority-queue dict (as a
function that is `none` where the dict has no key). -/
structure RRPQ where
  slots : List (Option String)
  pqueues : Option String → Option SubPQ

def RRPQ.empty : RRPQ := ⟨[], fun _ => none⟩

/-- `RoundRobinPriorityQueue.push`: when the request's slot has no queue yet, a
fresh empty priority queue is created for it and the slot is appended to the
rotation; the request is then pushed into the slot's queue. -/
def RRPQ.push (q : RRPQ) (r : QRequest) (priority : Int) : RRPQ :=
  { slots := if q.pqueues r.slot = none then q.slots ++ [r.slot] else q.slots,
    pqueues := fun t =>
      if t = r.slot then some (SubPQ.push ((q.pqueues r.slot).getD []) r priority)
      else q.pqueues t }

/-- `RoundRobinPriorityQueue.pop`: take the slot at the head of the rotation,
pop its priority queue, re-append the slot if its queue is still non-empty and
delete the slot's dict entry otherwise. (On a rotation slot whose dict entry
were missing the Python code would raise `KeyError`; that state is unreachable
by the rotation invariant proved below, and the embedding reads an empty queue
there.) -/
def RRPQ.pop (q : RRPQ) : Option QRequest × RRPQ :=
  match q.slots with
  | [] => (none, q)
  | slot :: rest =>
    let pq := (q.pqueues slot).getD []
    let res := SubPQ.pop pq
    if 0 < res.2.length then
      (res.1, ⟨rest ++ [slot], fun t => if t = slot then some res.2 else q.pqueues t⟩)
    else
      (res.1, ⟨rest, fun t => if t = slot then none else q.pqueues t⟩)

/-- Pop `n` times, collecting the results in order. -/
def RRPQ.popN : Nat → RRPQ → List (Option QRequest) × RRPQ
  | 0, q => ([], q)
  | n + 1, q =>
    let res := q.pop
    let rest := RRPQ.popN n res.2
    (res.1 :: rest.1, rest.2)

/-- A client-visible operation on the round-robin queue. -/
inductive QOp where
  | push (r : QRequest) (priority : Int)
  | pop

def RRPQ.applyOp (q : RRPQ) : QOp → RRPQ
  | QOp.push r p => q.push r p
  | QOp.pop => q.pop.2

def RRPQ.applyOps (q : RRPQ) : List QOp → RRPQ
  | [] => q
  | op :: ops => (q.applyOp op).applyOps ops

/-- The rotation invariant of `RoundRobinPriorityQueue`: the rotation holds no
slot twice, a slot is in the rotation exactly when its dict entry exists, and
every existing dict entry is a non-empty queue. -/
def RRPQ.Invariant (q : RRPQ) : Prop :=
  q.slots.Nodup ∧
  (∀ s, s ∈ q.slots ↔ (q.pqueues s).isSome) ∧
  (∀ s pq, q.pqueues s = some pq → 0 < pq.length)

lemma minPrio_eq_none (q : SubPQ) : minPrio q = none ↔ q = [] := by
  cases q with
  | nil => simp [minPrio]
  | cons a rest =>
    obtain ⟨p, r⟩ := a
    rw [minPrio]
    rcases minPrio rest <;> simp

lemma minPrio_le (q : SubPQ) (m : Int) (hm : minPrio q = some m) :
    ∀ e ∈ q, m ≤ e.1 := by
  induction q generalizing m with
  | nil => intro e he; cases he
  | cons a rest ih =>
    intro e he
    obtain ⟨p, r⟩ := a
    rcases hrest : minPrio rest with _ | mr
    · have hnil : rest = [] := (minPrio_eq_none rest).mp hrest
      subst hnil
      rw [minPrio, hrest] at hm
      cases hm
      rcases List.mem_cons.mp he with he | he
      · simp [he]
      · cases he
    · rw [minPrio, hrest] at hm
      cases hm
      rcases List.mem_cons.mp he with he | he
      · rw [he]; exact min_le_left _ _
      · exact le_trans (min_le_right _ _) (ih mr hrest e he)

lemma minPrio_mem (q : SubPQ) (m : Int) (hm : minPrio q = some m) :
    m ∈ q.map Prod.fst := by
  induction q generalizing m with
  | nil => cases hm
  | cons a rest ih =>
    obtain ⟨p, r⟩ := a
    rcases hrest : minPrio rest with _ | mr
    · rw [minPrio, hrest] at hm
      cases hm
      exact List.mem_cons_self _ _
    · rw [minPrio, hrest] at hm
      cases hm
      rcases min_choice p mr with h | h
      · rw [h]; exact List.mem_cons_self _ _
      · rw [h]; exact List.mem_cons_of_mem _ (ih mr hrest)

lemma extractAtPrio_spec (m : Int) (q : SubPQ) (hmem : m ∈ q.map Prod.fst) :
    ∃ r q2, extractAtPrio m q = (some r, q2) ∧ (m, r) ∈ q ∧
      q2.length + 1 = q.length := by
  induction q with
  | nil => cases hmem
  | cons a rest ih =>
    obtain ⟨p, r⟩ := a
    by_cases hp : p = m
    · subst hp
      exact ⟨r, rest, by rw [extractAtPrio]; simp, List.mem_cons_self _ _, rfl⟩
    · have hmem2 : m ∈ rest.map Prod.fst := by
        rcases List.mem_cons.mp hmem with h | h
        · exact absurd h.symm hp
        · exact h
      obtain ⟨r2, q2, hextract, hmm, hlen⟩ := ih hmem2
      refine ⟨r2, (p, r) :: q2, ?_, List.mem_cons_of_mem _ hmm, by simp [← hlen]⟩
      rw [extractAtPrio, if_neg hp, hextract]

/-- Popping a non-empty sub-queue returns an entry of minimal priority and
shrinks the queue by one. -/
lemma subPQ_pop_spec (q : SubPQ) (h : q ≠ []) :
    ∃ m r q2, minPrio q = some m ∧ SubPQ.pop q = (some r, q2) ∧
      (m, r) ∈ q ∧ (∀ e ∈ q, m ≤ e.1) ∧ q2.length + 1 = q.length := by
  rcases hq : minPrio q with _ | m
  · exact absurd ((minPrio_eq_none q).mp hq) h
  · obtain ⟨r, q2, hx, hmm, hlen⟩ := extractAtPrio_spec m q (minPrio_mem q m hq)
    refine ⟨m, r, q2, rfl, ?_, hmm, minPrio_le q m hq, hlen⟩
    rw [SubPQ.pop, hq]
    exact hx

lemma rrpq_empty_invariant : RRPQ.empty.Invariant := by
  refine ⟨List.nodup_nil, ?_, ?_⟩
  · intro s; simp [RRPQ.empty]
  · intro s pq h; cases h

lemma rrpq_push_invariant (q : RRPQ) (h : q.Invariant) (r : QRequest) (p : Int) :
    (q.push r p).Invariant := by
  obtain ⟨h1, h2, h3⟩ := h
  refine ⟨?_, ?_, ?_⟩
  · dsimp only [RRPQ.push]
    rcases hq : q.pqueues r.slot with _ | pq
    · have hnot : r.slot ∉ q.slots := by
        intro hmem
        have hi := (h2 r.slot).mp hmem
        rw [hq] at hi
        cases hi
      simp [List.nodup_append, h1, hnot]
    · simp [h1]
  · intro s
    dsimp only [RRPQ.push]
    by_cases hs : s = r.slot
    · subst hs
      rcases hq : q.pqueues r.slot with _ | pq
      · simp [hq]
      · have hmem := (h2 r.slot).mpr (by rw [hq]; rfl)
        simp [hq, hmem]
    · rcases hq : q.pqueues r.slot with _ | pq
      · simp [hq, hs, h2 s]
      · simp [hq, hs, h2 s]
  · intro s pq2 hpq2
    dsimp only [RRPQ.push] at hpq2
    by_cases hs : s = r.slot
    · rw [if_pos hs] at hpq2
      cases hpq2
      simp [SubPQ.push]
    · rw [if_neg hs] at hpq2
      exact h3 s pq2 hpq2

lemma rrpq_pop_invariant (q : RRPQ) (h : q.Invariant) : q.pop.2.Invariant := by
  obtain ⟨h1, h2, h3⟩ := h
  obtain ⟨slots, pqs⟩ := q
  cases slots with
  | nil => exact ⟨h1, h2, h3⟩
  | cons slot rest =>
    have hmem : slot ∈ slot :: rest := List.mem_cons_self _ _
    have hsome := (h2 slot).mp hmem
    rcases hpq : pqs slot with _ | pq
    · dsimp only at hsome
      rw [hpq] at hsome
      cases hsome
    have hlen : 0 < pq.length := h3 slot pq hpq
    have hne : pq ≠ [] := by
      intro hnil; rw [hnil] at hlen; cases hlen
    obtain ⟨m, r, q2, hmin, hpop, hmm, hle, hq2len⟩ := subPQ_pop_spec pq hne
    have hnd : rest.Nodup ∧ slot ∉ rest := by
      rw [List.nodup_cons] at h1
      exact ⟨h1.2, h1.1⟩
    show (RRPQ.pop ⟨slot :: rest, pqs⟩).2.Invariant
    rw [RRPQ.pop]
    dsimp only
    rw [hpq]
    dsimp only [Option.getD_some]
    rw [hpop]
    by_cases hq2 : 0 < q2.length
    · rw [if_pos hq2]
      refine ⟨?_, ?_, ?_⟩
      · dsimp only
        simp [List.nodup_append, hnd.1, hnd.2]
      · intro s
        dsimp only
        by_cases hs : s = slot
        · subst hs; simp
        · simp only [List.mem_append, List.mem_singleton, hs, or_false, if_neg hs]
          have hi := h2 s
          dsimp only at hi
          simp only [List.mem_cons, hs, false_or] at hi
          exact hi
      · intro s pq2 hpq2
        dsimp only at hpq2
        by_cases hs : s = slot
        · rw [if_pos hs] at hpq2
          cases hpq2
          exact hq2
        · rw [if_neg hs] at hpq2
          exact h3 s pq2 hpq2
    · rw [if_neg hq2]
      refine ⟨hnd.1, ?_, ?_⟩
      · intro s
        dsimp only
        by_cases hs : s = slot
        · subst hs
          simp [hnd.2]
        · rw [if_neg hs]
          have hi := h2 s
          dsimp only at hi
          simp only [List.mem_cons, hs, false_or] at hi
          exact hi
      · intro s pq2 hpq2
        dsimp only at hpq2
        by_cases hs : s = slot
        · rw [if_pos hs] at hpq2; cases hpq2
        · rw [if_neg hs] at hpq2
          exact h3 s pq2 hpq2

lemma rrpq_applyOps_invariant (ops : List QOp) :
    ∀ q : RRPQ, q.Invariant → (q.applyOps ops).Invariant := by
  induction ops with
  | nil => intro q h; exact h
  | cons op ops ih =>
    intro q h
    refine ih _ ?_
    cases op with
    | push r p => exact rrpq_push_invariant q h r p
    | pop => exact rrpq_pop_invariant q h

/-- Claim C4: starting from the empty queue, after every sequence of push and
pop operations the rotation invariant holds: every partition key in the
rotation has a sub-queue holding at least one request, each key occurs at most
once in the rotation, and the set of rotation keys equals the set of existing
partitions. -/
theorem claim4_rotation_invariant (ops : List QOp) :
    (RRPQ.empty.applyOps ops).Invariant :=
  rrpq_applyOps_invariant ops RRPQ.empty rrpq_empty_invariant

/-- Claim C4 (witness): the invariant at a concrete operation sequence. -/
theorem claim4_witness :
    (RRPQ.empty.applyOps
      [QOp.push ⟨some ("x"), 1⟩ 0, QOp.push ⟨some ("y"), 2⟩ 5, QOp.pop]).Invariant :=
  claim4_rotation_invariant
    [QOp.push ⟨some ("x"), 1⟩ 0, QOp.push ⟨some ("y"), 2⟩ 5, QOp.pop]

def rq1 : QRequest := ⟨some ("d"), 1⟩
def rq2 : QRequest := ⟨some ("d"), 2⟩
def rq3 : QRequest := ⟨some ("d"), 3⟩

/-- Claim C2 (counterexample): within one partition, requests pushed with equal
priority are NOT popped in push order. Pushing rq1 then rq2, both with priority
0 and the same slot, pops rq2 first, because the per-priority buckets of the
configured queues are LIFO. -/
theorem claim2_counterexample :
    (((RRPQ.empty.push rq1 0).push rq2 0).pop).1 = some rq2 ∧ rq2 ≠ rq1 := by
  constructor
  · rfl
  · decide

/-- Claim C2 (amended): within one partition of the domain-fair priority queue,
requests with a lower numeric priority value are popped before requests with a
higher value — in general a pop of a non-empty partition returns an entry of
minimal priority number, and concretely pushing priorities [5, 1, 3] pops
[1, 3, 5] — while requests pushed with equal priority are popped in reverse
push order (LIFO), since the per-priority sub-queues are LIFO. -/
theorem claim2_priority_order :
    ((RRPQ.popN 3 (((RRPQ.empty.push rq1 5).push rq2 1).push rq3 3)).1
        = [some rq2, some rq3, some rq1]) ∧
    ((RRPQ.popN 2 ((RRPQ.empty.push rq1 0).push rq2 0)).1
        = [some rq2, some rq1]) ∧
    (∀ pq : SubPQ, pq ≠ [] →
      ∃ m r q2, minPrio pq = some m ∧ SubPQ.pop pq = (some r, q2) ∧
        (m, r) ∈ pq ∧ ∀ e ∈ pq, m ≤ e.1) := by
  refine ⟨by decide, by decide, ?_⟩
  intro pq hpq
  obtain ⟨m, r, q2, hmin, hpop, hmm, hle, _⟩ := subPQ_pop_spec pq hpq
  exact ⟨m, r, q2, hmin, hpop, hmm, hle⟩

/-- Claim C2 (witness): the general minimal-priority property of pop at a
concrete one-element sub-queue. -/
theorem claim2_witness :
    ∃ m r q2, minPrio [((0 : Int), rq1)] = some m ∧
      SubPQ.pop [((0 : Int), rq1)] = (some r, q2) ∧
      (m, r) ∈ [((0 : Int), rq1)] ∧ ∀ e ∈ [((0 : Int), rq1)], m ≤ e.1 :=
  claim2_priority_order.2.2 [((0 : Int), rq1)] (by decide)

def rx1 : QRequest := ⟨some ("x"), 1⟩
def rx2 : QRequest := ⟨some ("x"), 2⟩
def rx3 : QRequest := ⟨some ("x"), 3⟩
def ry1 : QRequest := ⟨some ("y"), 4⟩

/-- Two partitions holding 3 and 1 equal-priority items; partition x entered
the rotation first. -/
def scenarioQ : RRPQ :=
  (((RRPQ.empty.push rx1 0).push rx2 0).push rx3 0).push ry1 0

/-- Claim C3: pop returns nothing when the rotation is empty; otherwise it
serves the partition at the head of the rotation, re-appending it while it
still holds requests and discarding it otherwise — so for partitions x (3
items) and y (1 item), four pops serve partitions in the order x, y, x, x, and
afterwards the rotation is empty. -/
theorem claim3_pop_roundrobin :
    (∀ q : RRPQ, q.slots = [] → q.pop = (none, q)) ∧
    ((RRPQ.popN 4 scenarioQ).1.map (Option.map QRequest.slot)
        = [some (some ("x")), some (some ("y")), some (some ("x")), some (some ("x"))]) ∧
    ((RRPQ.popN 4 scenarioQ).2.slots = []) := by
  refine ⟨?_, by decide, by decide⟩
  intro q hq
  obtain ⟨slots, pqs⟩ := q
  have hnil : slots = [] := hq
  subst hnil
  rfl

/-- Claim C3 (witness): pop on the empty rotation returns nothing. -/
theorem claim3_witness : RRPQ.pop RRPQ.empty = (none, RRPQ.empty) :=
  claim3_pop_roundrobin.1 RRPQ.empty rfl

/-- `middleware.MaxRequestsMiddleware` state: the per-netloc counters
(a `defaultdict(int)`, embedded as a total function) and the
`MaxRequestsMiddleware/dropped` stats value. -/
structure MaxRequestsState where
  requests_num : String → Nat
  dropped : Nat

def MaxRequestsState.start : MaxRequestsState := ⟨fun _ => 0, 0⟩

/-- `MaxRequestsMiddleware.process_request` for one candidate request to
`netloc`: the per-netloc counter is incremented first, and the request is then
rejected (`IgnoreRequest` raised, the drop stat incremented) when the
incremented counter is greater than or equal to `max_requests`. The `Bool`
result is `true` exactly when the request is accepted. -/
def process_request (max_requests : Nat) (st : MaxRequestsState) (netloc : String) :
    MaxRequestsState × Bool :=
  let n := st.requests_num netloc + 1
  let st1 : MaxRequestsState :=
    ⟨fun t => if t = netloc then n else st.requests_num t, st.dropped⟩
  if max_requests ≤ n then ({ st1 with dropped := st1.dropped + 1 }, false)
  else (st1, true)

/-- Run `process_request` over a list of candidate requests, collecting each
accept/reject outcome in order. -/
def process_list (max_requests : Nat) (st : MaxRequestsState) :
    List String → MaxRequestsState × List Bool
  | [] => (st, [])
  | d :: ds =>
    let res := process_request max_requests st d
    let rest := process_list max_requests res.1 ds
    (rest.1, res.2 :: rest.2)

/-- Claim C1 (counterexample): with cap = 3, submitting 5 candidate requests
for one domain does NOT give 3 accepted with rejections starting on the 4th:
the code rejects as soon as the incremented counter reaches the cap, so only 2
requests are accepted and the 3rd, 4th and 5th are rejected. -/
theorem claim1_counterexample :
    (process_list 3 MaxRequestsState.start [("d"), ("d"), ("d"), ("d"), ("d")]).2
        = [true, true, false, false, false] ∧
    (process_list 3 MaxRequestsState.start [("d"), ("d"), ("d"), ("d"), ("d")]).2.count
        true ≠ 3 := by
  constructor
  · rfl
  · decide

/-- Claim C1 (amended): with cap 3, submitting 5 candidate requests for one
domain results in exactly 2 accepted and 3 rejected, the rejections occurring
on the 3rd, 4th and 5th requests; in general the per-domain counter is
incremented on each candidate (counters of other domains are untouched) and a
request is rejected exactly when the incremented counter reaches or exceeds
the cap, so for cap c at most c - 1 requests are accepted. -/
theorem claim1_admission_cap :
    ((process_list 3 MaxRequestsState.start [("d"), ("d"), ("d"), ("d"), ("d")]).2
        = [true, true, false, false, false]) ∧
    (∀ (c : Nat) (st : MaxRequestsState) (d : String),
      (process_request c st d).1.requests_num d = st.requests_num d + 1 ∧
      ((process_request c st d).2 = false ↔ c ≤ st.requests_num d + 1) ∧
      ∀ t, t ≠ d → (process_request c st d).1.requests_num t = st.requests_num t) := by
  refine ⟨by decide, ?_⟩
  intro c st d
  refine ⟨?_, ?_, ?_⟩
  · dsimp only [process_request]
    by_cases hc : c ≤ st.requests_num d + 1
    · rw [if_pos hc]; simp
    · rw [if_neg hc]; simp
  · dsimp only [process_request]
    by_cases hc : c ≤ st.requests_num d + 1
    · rw [if_pos hc]; simpa using hc
    · rw [if_neg hc]; simpa using hc
  · intro t ht
    dsimp only [process_request]
    by_cases hc : c ≤ st.requests_num d + 1
    · rw [if_pos hc]; simp [ht]
    · rw [if_neg hc]; simp [ht]

/-- Claim C1 (witness): the general per-call facts at a concrete input. -/
theorem claim1_witness :
    (process_request 3 MaxRequestsState.start ("d")).1.requests_num ("e")
      = MaxRequestsState.start.requests_num ("e") :=
  (claim1_admission_cap.2 3 MaxRequestsState.start ("d")).2.2 ("e") (by decide)

/-- Modelled from the spec: the scheme marker scan shared by `urlsplit` and
`w3lib`'s `add_http_if_no_scheme`, both external to src/. Returns the text
after the first "://" marker, or nothing when the marker is absent. -/
def afterMarker : List Char → Option (List Char)
  | [] => none
  | ':' :: '/' :: '/' :: rest => some rest
  | _ :: rest => afterMarker rest

/-- Modelled from the spec: `urlsplit(url).netloc` (Python standard library,
external to src/) — the authority component: the text after the "://" marker up
to the next path, query or fragment delimiter; empty when the marker is
absent. -/
def get_netloc (url : String) : String :=
  match afterMarker url.toList with
  | none => ""
  | some rest =>
    String.mk (rest.takeWhile (fun c => !(c == '/' || c == '?' || c == '#')))

/-- Modelled from the spec: `w3lib`'s `add_http_if_no_scheme` (external to
src/) — prepend "http://" when the url carries no scheme marker. -/
def add_http_if_no_scheme (url : String) : String :=
  if (afterMarker url.toList).isSome then url else ("http://") ++ url

/-- `normalize_url` from linkdepth.py. Modelled from the spec: `canonicalize_url`
is an external collaborator (URL canonicalization is out of scope per the spec)
and is embedded as the identity; the https-to-http fold performed by the
`replace` call is kept, applied to the scheme position. -/
def normalize_url (url : String) : String :=
  let u := add_http_if_no_scheme url
  if u.toList.take 8 = ("https://").toList then
    ("http://") ++ String.mk (u.toList.drop 8)
  else u

/-- The per-domain crawl state owned by `DepthSpider`: `_urls_to_check` and
`_urls_to_find` (both `defaultdict(set)`, embedded as total functions into
finite sets), `_starts` (a dict keyed by normalized url, holding the
(start_url, start_depth) pair as yielded by `read_urls`), and the outstanding
seed requests issued by `start_requests` whose callback has not fired yet
(each input row yields exactly one seed request, so this is a list with one
entry per row). -/
structure TrackState where
  urls_to_check : String → Finset String
  urls_to_find : String → Finset String
  starts : String → Option (String × Int)
  pending : List String

/-- The spider state right after `__init__`-time setup, before any row of the
urls file is processed: every defaultdict is empty. -/
def emptyTrack : TrackState := ⟨fun _ => ∅, fun _ => ∅, fun _ => none, []⟩

/-- `DepthSpider.should_drop`: Python returns a falsy `None` unless the request
meta carries a truthy netloc whose `_urls_to_check` entry is empty, and returns
`True` when additionally that netloc's `_urls_to_find` entry is empty. The
Python `not netloc` test is truthy both for a missing key (`none`) and for an
empty string. -/
def should_drop (st : TrackState) (netloc : Option String) : Bool :=
  match netloc with
  | none => false
  | some d =>
    if d = "" then false
    else if st.urls_to_check d ≠ ∅ then false
    else if st.urls_to_find d = ∅ then true
    else false

lemma should_drop_some_iff (st : TrackState) (d : String) :
    should_drop st (some d) = true ↔
      d ≠ "" ∧ st.urls_to_check d = ∅ ∧ st.urls_to_find d = ∅ := by
  rw [should_drop]
  split_ifs with h1 h2 h3
  · simp [h1]
  · simp [h2]
  · simp only [true_iff, not_not] at h2 ⊢
    exact ⟨h1, h2, h3⟩
  · simp [h3]

/-- Claim C5: `should_drop` returns a truthy result exactly when the request
carries a (non-empty) domain whose `to_check` set is empty and whose `to_find`
set is empty; in particular it never drops a request whose domain still has
urls to check, and never drops a request without an associated domain. -/
theorem claim5_should_drop_iff (st : TrackState) (netloc : Option String) :
    should_drop st netloc = true ↔
      ∃ d, netloc = some d ∧ d ≠ "" ∧
        st.urls_to_check d = ∅ ∧ st.urls_to_find d = ∅ := by
  cases netloc with
  | none => simp [should_drop]
  | some d =>
    rw [should_drop_some_iff]
    constructor
    · rintro ⟨h1, h2, h3⟩
      exact ⟨d, rfl, h1, h2, h3⟩
    · rintro ⟨d2, hd, h1, h2, h3⟩
      obtain rfl := Option.some.inj hd
      exact ⟨h1, h2, h3⟩

/-- Claim C5 (witness): the characterization at a concrete state. -/
theorem claim5_witness :
    should_drop emptyTrack (some ("d")) = true ↔
      ∃ d, (some ("d") : Option String) = some d ∧ d ≠ "" ∧
        emptyTrack.urls_to_check d = ∅ ∧ emptyTrack.urls_to_find d = ∅ :=
  claim5_should_drop_iff emptyTrack (some ("d"))

/-- The spider callbacks that mutate the crawl state. `validate url reachable`
is the `parse_seed` callback (`reachable = true`: the seed url is discarded
from its netloc's `_urls_to_check` and its normalized form added to
`_urls_to_find`) or the `parse_seed_error` errback (`reachable = false`: the
discard only) for one issued seed request. `found url` is the
`to_find.discard(normalize_url(url))` performed by `_handle_ground_truth` when
a ground-truth url is located. -/
inductive SpEvent where
  | validate (url : String) (reachable : Bool)
  | found (url : String)

/-- One event applied to the crawl state; `gn` is `get_netloc` and `nz` is
`normalize_url` (kept as parameters so theorems hold for any choice of the
external url functions). -/
def stepEvent (gn nz : String → String) (st : TrackState) : SpEvent → TrackState
  | SpEvent.validate url reachable =>
    { st with
      urls_to_check := fun t =>
        if t = gn url then (st.urls_to_check (gn url)).erase url
        else st.urls_to_check t,
      urls_to_find :=
        if reachable = true then
          fun t =>
            if t = gn url then insert (nz url) (st.urls_to_find (gn url))
            else st.urls_to_find t
        else st.urls_to_find,
      pending := st.pending.erase url }
  | SpEvent.found url =>
    { st with
      urls_to_find := fun t =>
        if t = gn url then (st.urls_to_find (gn url)).erase (nz url)
        else st.urls_to_find t }

def runEvents (gn nz : String → String) (st : TrackState) : List SpEvent → TrackState
  | [] => st
  | e :: es => runEvents gn nz (stepEvent gn nz st e) es

/-- A sequence of events is a possible execution of the spider when every
`validate` event consumes one still-outstanding seed request: `start_requests`
issues exactly one request per input row, and each request's callback or
errback fires at most once. `found` events carry no precondition (the
`ground_truth` guard of `_handle_ground_truth` only makes the discard a no-op
when the url is not sought). -/
def ValidB (gn nz : String → String) (st : TrackState) : List SpEvent → Bool
  | [] => true
  | SpEvent.validate url r :: es =>
    decide (url ∈ st.pending) &&
      ValidB gn nz (stepEvent gn nz st (SpEvent.validate url r)) es
  | SpEvent.found url :: es =>
    ValidB gn nz (stepEvent gn nz st (SpEvent.found url)) es

/-- The state set up by `start_requests` for a list of seed urls (each already
passed through `add_http_if_no_scheme`), before any response arrives: every
seed url is added to its netloc's `_urls_to_check` entry and one seed request
per row is outstanding. `_starts` is irrelevant to the drop gate and left
empty here. -/
def initState (gn : String → String) (seeds : List String) : TrackState :=
  { urls_to_check := fun d => (seeds.filter (fun u => gn u == d)).toFinset,
    urls_to_find := fun _ => ∅,
    starts := fun _ => none,
    pending := seeds }

/-- Every outstanding seed request's url is still in its netloc's `to_check`
set, and no seed request is outstanding twice. -/
def PendInv (gn : String → String) (st : TrackState) : Prop :=
  st.pending.Nodup ∧ ∀ u ∈ st.pending, u ∈ st.urls_to_check (gn u)

/-- The drop condition of the completion gate for domain `d`. -/
def DropNow (st : TrackState) (d : String) : Prop :=
  st.urls_to_check d = ∅ ∧ st.urls_to_find d = ∅

lemma pendInv_validate (gn nz : String → String) (st : TrackState) (url : String)
    (r : Bool) (hP : PendInv gn st) (_hmem : url ∈ st.pending) :
    PendInv gn (stepEvent gn nz st (SpEvent.validate url r)) := by
  obtain ⟨hnd, hsub⟩ := hP
  refine ⟨hnd.erase url, ?_⟩
  intro v hv
  have hv2 := (List.Nodup.mem_erase_iff hnd).mp hv
  have hvc := hsub v hv2.2
  show v ∈ (if gn v = gn url then (st.urls_to_check (gn url)).erase url
      else st.urls_to_check (gn v))
  by_cases hgn : gn v = gn url
  · rw [if_pos hgn]
    exact Finset.mem_erase.mpr ⟨hv2.1, hgn ▸ hvc⟩
  · rw [if_neg hgn]
    exact hvc

lemma pendInv_found (gn nz : String → String) (st : TrackState) (url : String)
    (hP : PendInv gn st) : PendInv gn (stepEvent gn nz st (SpEvent.found url)) := hP

lemma dropNow_validate (gn nz : String → String) (st : TrackState) (url : String)
    (r : Bool) (d : String) (hP : PendInv gn st) (hmem : url ∈ st.pending)
    (hD : DropNow st d) : DropNow (stepEvent gn nz st (SpEvent.validate url r)) d := by
  have hne : ¬(d = gn url) := by
    intro he
    have hu := hP.2 url hmem
    rw [← he, hD.1] at hu
    exact Finset.not_mem_empty url hu
  constructor
  · show (if d = gn url then (st.urls_to_check (gn url)).erase url
        else st.urls_to_check d) = ∅
    rw [if_neg hne]
    exact hD.1
  · show (stepEvent gn nz st (SpEvent.validate url r)).urls_to_find d = ∅
    cases r with
    | false => exact hD.2
    | true =>
      show (if d = gn url then insert (nz url) (st.urls_to_find (gn url))
          else st.urls_to_find d) = ∅
      rw [if_neg hne]
      exact hD.2

lemma dropNow_found (gn nz : String → String) (st : TrackState) (url : String)
    (d : String) (hD : DropNow st d) :
    DropNow (stepEvent gn nz st (SpEvent.found url)) d := by
  refine ⟨hD.1, ?_⟩
  show (if d = gn url then (st.urls_to_find (gn url)).erase (nz url)
      else st.urls_to_find d) = ∅
  by_cases h : d = gn url
  · rw [if_pos h, ← h, hD.2, Finset.erase_empty]
  · rw [if_neg h]
    exact hD.2

lemma run_preserves (gn nz : String → String) :
    ∀ (es : List SpEvent) (st : TrackState), PendInv gn st →
      ValidB gn nz st es = true →
      PendInv gn (runEvents gn nz st es) ∧
      ∀ d, DropNow st d → DropNow (runEvents gn nz st es) d := by
  intro es
  induction es with
  | nil => intro st hP _; exact ⟨hP, fun _ hD => hD⟩
  | cons e es ih =>
    intro st hP hV
    cases e with
    | validate url r =>
      rw [ValidB, Bool.and_eq_true, decide_eq_true_eq] at hV
      obtain ⟨hmem, hV2⟩ := hV
      have hP2 := pendInv_validate gn nz st url r hP hmem
      obtain ⟨hPf, hDf⟩ := ih _ hP2 hV2
      exact ⟨hPf, fun d hD => hDf d (dropNow_validate gn nz st url r d hP hmem hD)⟩
    | found url =>
      rw [ValidB] at hV
      have hP2 := pendInv_found gn nz st url hP
      obtain ⟨hPf, hDf⟩ := ih _ hP2 hV
      exact ⟨hPf, fun d hD => hDf d (dropNow_found gn nz st url d hD)⟩

lemma validB_append (gn nz : String → String) :
    ∀ (es1 es2 : List SpEvent) (st : TrackState),
      ValidB gn nz st (es1 ++ es2) = true →
      ValidB gn nz st es1 = true ∧
        ValidB gn nz (runEvents gn nz st es1) es2 = true := by
  intro es1
  induction es1 with
  | nil => intro es2 st h; exact ⟨rfl, h⟩
  | cons e es ih =>
    intro es2 st h
    cases e with
    | validate url r =>
      rw [List.cons_append, ValidB, Bool.and_eq_true] at h
      obtain ⟨h1, h2⟩ := h
      obtain ⟨h3, h4⟩ := ih es2 _ h2
      exact ⟨by rw [ValidB, Bool.and_eq_true]; exact ⟨h1, h3⟩, h4⟩
    | found url =>
      rw [List.cons_append, ValidB] at h
      obtain ⟨h3, h4⟩ := ih es2 _ h
      exact ⟨by rw [ValidB]; exact h3, h4⟩

lemma runEvents_append (gn nz : String → String) :
    ∀ (es1 es2 : List SpEvent) (st : TrackState),
      runEvents gn nz st (es1 ++ es2)
        = runEvents gn nz (runEvents gn nz st es1) es2 := by
  intro es1
  induction es1 with
  | nil => intro es2 st; rfl
  | cons e es ih => intro es2 st; exact ih es2 (stepEvent gn nz st e)

lemma initState_pendInv (gn : String → String) (seeds : List String)
    (hnd : seeds.Nodup) : PendInv gn (initState gn seeds) := by
  refine ⟨hnd, ?_⟩
  intro u hu
  show u ∈ (seeds.filter (fun v => gn v == gn u)).toFinset
  rw [List.mem_toFinset, List.mem_filter]
  exact ⟨hu, by simp⟩

/-- Claim C6 (counterexample): with a duplicated seed row the drop gate is NOT
monotone. The urls file may list the same url twice; `start_requests` then
issues two `dont_filter` seed requests for it. After the first seed response
validates the url and the ground-truth url is then found, `should_drop` for the
domain is true; when the second seed response arrives, `parse_seed` re-adds the
normalized url to `to_find` and `should_drop` flips back to false. -/
theorem claim6_counterexample :
    (ValidB get_netloc normalize_url
      (initState get_netloc [("http://d/a"), ("http://d/a")])
      [SpEvent.validate ("http://d/a") true, SpEvent.found ("http://d/a"),
       SpEvent.validate ("http://d/a") true] = true) ∧
    (should_drop
      (runEvents get_netloc normalize_url
        (initState get_netloc [("http://d/a"), ("http://d/a")])
        [SpEvent.validate ("http://d/a") true, SpEvent.found ("http://d/a")])
      (some ("d")) = true) ∧
    (should_drop
      (runEvents get_netloc normalize_url
        (initState get_netloc [("http://d/a"), ("http://d/a")])
        [SpEvent.validate ("http://d/a") true, SpEvent.found ("http://d/a"),
         SpEvent.validate ("http://d/a") true])
      (some ("d")) = false) := by
  refine ⟨by decide, by decide, by decide⟩

/-- Claim C6 (amended): `record_found` is idempotent — discarding the same
normalized url twice leaves `to_find` as after the first discard — and, along
every valid execution whose seed urls are pairwise distinct (so that no seed
url is validated twice), once `should_drop` returns true for a domain it never
returns false for that domain again. -/
theorem claim6_idempotent_monotone (gn nz : String → String) :
    (∀ (st : TrackState) (u : String),
        (stepEvent gn nz (stepEvent gn nz st (SpEvent.found u))
            (SpEvent.found u)).urls_to_find
          = (stepEvent gn nz st (SpEvent.found u)).urls_to_find) ∧
    (∀ (seeds : List String) (es1 es2 : List SpEvent) (d : String),
        seeds.Nodup →
        ValidB gn nz (initState gn seeds) (es1 ++ es2) = true →
        should_drop (runEvents gn nz (initState gn seeds) es1) (some d) = true →
        should_drop (runEvents gn nz (initState gn seeds) (es1 ++ es2))
          (some d) = true) := by
  constructor
  · intro st u
    funext t
    dsimp only [stepEvent]
    by_cases h : t = gn u
    · simp [h, Finset.erase_idem]
    · simp [h]
  · intro seeds es1 es2 d hnd hV hdrop
    obtain ⟨hV1, hV2⟩ := validB_append gn nz es1 es2 (initState gn seeds) hV
    have hmid := run_preserves gn nz es1 (initState gn seeds)
      (initState_pendInv gn seeds hnd) hV1
    rw [should_drop_some_iff] at hdrop
    have hfin := run_preserves gn nz es2 _ hmid.1 hV2
    have hD : DropNow (runEvents gn nz (runEvents gn nz (initState gn seeds) es1) es2) d :=
      hfin.2 d ⟨hdrop.2.1, hdrop.2.2⟩
    rw [runEvents_append gn nz es1 es2, should_drop_some_iff]
    exact ⟨hdrop.1, hD.1, hD.2⟩

/-- Claim C6 (witness): monotonicity at a concrete valid execution with one
seed url: after the seed is validated and found, one more `found` event keeps
`should_drop` true. -/
theorem claim6_witness :
    should_drop
      (runEvents get_netloc normalize_url (initState get_netloc [("http://d/a")])
        ([SpEvent.validate ("http://d/a") true, SpEvent.found ("http://d/a")]
          ++ [SpEvent.found ("http://d/a")]))
      (some ("d")) = true :=
  (claim6_idempotent_monotone get_netloc normalize_url).2 [("http://d/a")]
    [SpEvent.validate ("http://d/a") true, SpEvent.found ("http://d/a")]
    [SpEvent.found ("http://d/a")] ("d") (by decide) (by decide) (by decide)

/-- Invariant for a domain `d` that no seed url belongs to: both defaultdict
entries for `d` stay empty and no outstanding seed request has netloc `d`. -/
def UnknownInv (gn : String → String) (d : String) (st : TrackState) : Prop :=
  st.urls_to_check d = ∅ ∧ st.urls_to_find d = ∅ ∧
    ∀ u ∈ st.pending, gn u ≠ d

lemma unknownInv_validate (gn nz : String → String) (d : String) (st : TrackState)
    (url : String) (r : Bool) (hI : UnknownInv gn d st)
    (hmem : url ∈ st.pending) :
    UnknownInv gn d (stepEvent gn nz st (SpEvent.validate url r)) := by
  obtain ⟨h1, h2, h3⟩ := hI
  have hne : ¬(d = gn url) := fun he => h3 url hmem he.symm
  refine ⟨?_, ?_, ?_⟩
  · show (if d = gn url then (st.urls_to_check (gn url)).erase url
        else st.urls_to_check d) = ∅
    rw [if_neg hne]
    exact h1
  · show (stepEvent gn nz st (SpEvent.validate url r)).urls_to_find d = ∅
    cases r with
    | false => exact h2
    | true =>
      show (if d = gn url then insert (nz url) (st.urls_to_find (gn url))
          else st.urls_to_find d) = ∅
      rw [if_neg hne]
      exact h2
  · intro v hv
    exact h3 v (List.mem_of_mem_erase hv)

lemma unknownInv_found (gn nz : String → String) (d : String) (st : TrackState)
    (url : String) (hI : UnknownInv gn d st) :
    UnknownInv gn d (stepEvent gn nz st (SpEvent.found url)) := by
  obtain ⟨h1, h2, h3⟩ := hI
  refine ⟨h1, ?_, h3⟩
  show (if d = gn url then (st.urls_to_find (gn url)).erase (nz url)
      else st.urls_to_find d) = ∅
  by_cases h : d = gn url
  · rw [if_pos h, ← h, h2, Finset.erase_empty]
  · rw [if_neg h]
    exact h2

lemma unknownInv_run (gn nz : String → String) (d : String) :
    ∀ (es : List SpEvent) (st : TrackState), UnknownInv gn d st →
      ValidB gn nz st es = true → UnknownInv gn d (runEvents gn nz st es) := by
  intro es
  induction es with
  | nil => intro st hI _; exact hI
  | cons e es ih =>
    intro st hI hV
    cases e with
    | validate url r =>
      rw [ValidB, Bool.and_eq_true, decide_eq_true_eq] at hV
      exact ih _ (unknownInv_validate gn nz d st url r hI hV.1) hV.2
    | found url =>
      rw [ValidB] at hV
      exact ih _ (unknownInv_found gn nz d st url hI) hV

lemma initState_unknown (gn : String → String) (seeds : List String) (d : String)
    (h : ∀ u ∈ seeds, gn u ≠ d) : UnknownInv gn d (initState gn seeds) := by
  refine ⟨?_, rfl, h⟩
  show (seeds.filter (fun v => gn v == d)).toFinset = ∅
  rw [Finset.eq_empty_iff_forall_not_mem]
  intro u hu
  rw [List.mem_toFinset, List.mem_filter] at hu
  exact h u hu.1 (by simpa using hu.2)

/-- Claim C10: along every valid execution starting from the seed urls, a
request whose metadata carries a (non-empty) netloc that is the netloc of no
seed url is dropped by the completion gate — the tracker's defaultdict entries
for an unknown domain stay empty, so `should_drop` returns true. -/
theorem claim10_unknown_domain_dropped (gn nz : String → String)
    (seeds : List String) (es : List SpEvent) (d : String)
    (hne : d ≠ "") (hdom : ∀ u ∈ seeds, gn u ≠ d)
    (hV : ValidB gn nz (initState gn seeds) es = true) :
    should_drop (runEvents gn nz (initState gn seeds) es) (some d) = true := by
  have hI := unknownInv_run gn nz d es (initState gn seeds)
    (initState_unknown gn seeds d hdom) hV
  exact (should_drop_some_iff _ _).mpr ⟨hne, hI.1, hI.2.1⟩

/-- Claim C10 (witness): a concrete unknown domain is dropped after a concrete
valid execution. -/
theorem claim10_witness :
    should_drop
      (runEvents get_netloc normalize_url (initState get_netloc [("http://a/x")])
        [SpEvent.validate ("http://a/x") true])
      (some ("b")) = true :=
  claim10_unknown_domain_dropped get_netloc normalize_url [("http://a/x")]
    [SpEvent.validate ("http://a/x") true] ("b") (by decide) (by decide) (by decide)

/-- One row of the seed csv file: `url` required, `start` and `start_depth`
optional (`none` embeds an absent column; the `int(...)` parse of `start_depth`
is abstracted by taking the field as an integer when present). -/
structure Row where
  url : String
  start : Option String
  start_depth : Option Int

/-- `read_urls` on one row: the url gets a scheme if missing, `start` defaults
to "http://" followed by the url's netloc, `start_depth` defaults to 0; the
function yields the triple `(url, start_url, start_depth)`. -/
def read_urls_row (row : Row) : String × String × Int :=
  let url := add_http_if_no_scheme row.url
  let start_url := row.start.getD (("http://") ++ get_netloc url)
  let start_depth := row.start_depth.getD 0
  (url, start_url, start_depth)

/-- The state mutation `start_requests` performs for one csv row (the seed
request it issues is tracked in `pending`). The Python loop destructures the
triple yielded by `read_urls` as `url, start_depth, start_url` — the names of
the last two components are swapped relative to what `read_urls` yields — and
then stores the pair `(start_depth, start_url)`, swapping once more; the value
stored under `_starts[normalize_url url]` is therefore componentwise the
`(start_url, start_depth)` pair as produced by `read_urls`. -/
def start_requests_row (st : TrackState) (row : Row) : TrackState :=
  let t := read_urls_row row
  let netloc := get_netloc t.1
  { st with
    urls_to_check := fun s =>
      if s = netloc then insert t.1 (st.urls_to_check netloc)
      else st.urls_to_check s,
    starts := fun s =>
      if s = normalize_url t.1 then some (t.2.1, t.2.2) else st.starts s,
    pending := st.pending ++ [t.1] }

/-- An exploratory request yielded by `maybe_start_domain_crawl`: its target
url and its meta (`request_depth` and `netloc`; `scheduler_slot` equals
`netloc` in the source and is not duplicated here). -/
structure CrawlRequest where
  url : String
  request_depth : Int
  netloc : String
deriving DecidableEq

/-- `DepthSpider.maybe_start_domain_crawl`: nothing is emitted while
`_urls_to_check[netloc]` is non-empty or when `_urls_to_find[netloc]` is empty;
otherwise one request per element of the Python set
`{_starts[url] for url in to_find}` is emitted (a set comprehension, so one
request per distinct pair), unpacked as `start_url, start_depth`. The result is
a finite set because Python iterates a set in unspecified order. (`_starts` has
an entry for every url in `to_find`, which `parse_seed` guarantees; the `getD`
default models the `KeyError` that an unknown key would raise.) -/
def maybe_start_domain_crawl (st : TrackState) (netloc : String) :
    Finset CrawlRequest :=
  if st.urls_to_check netloc ≠ ∅ then ∅
  else if st.urls_to_find netloc = ∅ then ∅
  else
    ((st.urls_to_find netloc).image
        (fun u => (st.starts u).getD (("", 0)))).image
      (fun p => ⟨p.1, p.2, netloc⟩)

/-- The state after `start_requests` reads a single https row with no `start`
and no `start_depth` column, and its seed request then succeeds. -/
def cexState : TrackState :=
  stepEvent get_netloc normalize_url
    (start_requests_row emptyTrack ⟨("https://example.com/a"), none, none⟩)
    (SpEvent.validate ("https://example.com/a") true)

/-- Claim C9 (counterexample): for a seed row whose `url` is
"https://example.com/a" with no `start` column, the emitted exploratory request
targets "http://example.com" — the scheme is always http, NOT the scheme+host
of `url`, which would be "https://example.com". -/
theorem claim9_counterexample :
    maybe_start_domain_crawl cexState ("example.com")
        = {⟨("http://example.com"), 0, ("example.com")⟩} ∧
    (("http://example.com") : String) ≠ ("https://example.com") := by
  refine ⟨by decide, by decide⟩

/-- Claim C9 (amended): when a row's domain becomes ready (`to_check` empty,
`to_find` non-empty), exactly one exploratory request is emitted per distinct
(start_url, start_depth) pair among its reachable seeds — the emitted set is
the image of the pair set, whose cardinality it matches — and each request
targets the pair's start url with request-depth metadata equal to the pair's
start depth and netloc meta equal to the domain; nothing is emitted while
`to_check` is non-empty. In `read_urls`, `start` defaults to "http://" followed
by the host of `url` (always the http scheme, regardless of the url's own
scheme) and `start_depth` defaults to 0. -/
theorem claim9_domain_start :
    (∀ row : Row, row.start = none →
        (read_urls_row row).2.1
          = ("http://") ++ get_netloc (add_http_if_no_scheme row.url)) ∧
    (∀ row : Row, row.start_depth = none → (read_urls_row row).2.2 = 0) ∧
    (∀ (st : TrackState) (netloc : String), st.urls_to_check netloc ≠ ∅ →
        maybe_start_domain_crawl st netloc = ∅) ∧
    (∀ (st : TrackState) (netloc : String),
        st.urls_to_check netloc = ∅ → st.urls_to_find netloc ≠ ∅ →
        (∀ r : CrawlRequest, r ∈ maybe_start_domain_crawl st netloc ↔
            ∃ u ∈ st.urls_to_find netloc,
              r = ⟨((st.starts u).getD (("", 0))).1,
                   ((st.starts u).getD (("", 0))).2, netloc⟩) ∧
        (maybe_start_domain_crawl st netloc).card
          = ((st.urls_to_find netloc).image
              (fun u => (st.starts u).getD (("", 0)))).card) ∧
    (maybe_start_domain_crawl cexState ("example.com")
        = {⟨("http://example.com"), 0, ("example.com")⟩}) := by
  refine ⟨?_, ?_, ?_, ?_, by decide⟩
  · intro row h
    simp [read_urls_row, h]
  · intro row h
    simp [read_urls_row, h]
  · intro st netloc h
    rw [maybe_start_domain_crawl, if_pos h]
  · intro st netloc h1 h2
    constructor
    · intro r
      rw [maybe_start_domain_crawl, if_neg (by simp [h1]), if_neg h2]
      simp only [Finset.mem_image]
      constructor
      · rintro ⟨p, hp, rfl⟩
        obtain ⟨u, hu, rfl⟩ := hp
        exact ⟨u, hu, rfl⟩
      · rintro ⟨u, hu, rfl⟩
        exact ⟨(st.starts u).getD (("", 0)), ⟨u, hu, rfl⟩, rfl⟩
    · rw [maybe_start_domain_crawl, if_neg (by simp [h1]), if_neg h2]
      apply Finset.card_image_of_injective
      intro p q hpq
      have hu := congrArg CrawlRequest.url hpq
      have hd := congrArg CrawlRequest.request_depth hpq
      exact Prod.ext hu hd

/-- A concrete ready state: domain "d" has no urls left to check and one
reachable seed "u" whose start pair is ("s", 2). -/
def readyState : TrackState :=
  ⟨fun _ => ∅, fun t => if t = ("d") then {("u")} else ∅,
    fun t => if t = ("u") then some (("s"), 2) else none, []⟩

/-- Claim C9 (witness): the emission characterization at a concrete ready
state with one reachable seed. -/
theorem claim9_witness :
    (∀ r : CrawlRequest,
        r ∈ maybe_start_domain_crawl readyState ("d") ↔
          ∃ u ∈ readyState.urls_to_find ("d"),
            r = ⟨((readyState.starts u).getD (("", 0))).1,
                 ((readyState.starts u).getD (("", 0))).2, ("d")⟩) ∧
    ((maybe_start_domain_crawl readyState ("d")).card
      = ((readyState.urls_to_find ("d")).image
          (fun u => (readyState.starts u).getD (("", 0)))).card) :=
  claim9_domain_start.2.2.2.1 readyState ("d") rfl (by decide)

/-- The decision-log payload `request.meta['request_info']`: a Python dict of
record fields, embedded as a list of field-value pairs. `none` embeds a missing
key and `[]` an empty dict (both are falsy in Python). -/
abbrev Info := List (String × String)

/-- A request as `LoggingScheduler` sees it: the `dont_filter` flag, the
optional `request_info` meta entry, and the request fingerprint the dupefilter
computes for it. -/
structure SchedRequest where
  dont_filter : Bool
  request_info : Option Info
  fp : Nat
deriving DecidableEq

/-- `LoggingScheduler` state: whether `SCHEDULER_PUSH_LOG` is configured (so
`log_fp` is an open file), the records appended so far, the dupefilter's seen
fingerprints, and the memory queue plus the optional disk queue. -/
structure SchedState where
  log_fp : Bool
  log : List Info
  seen : List Nat
  mqs : List SchedRequest
  dqs : Option (List SchedRequest)
deriving DecidableEq

/-- `LoggingScheduler.log_request`: with no open log file nothing happens;
otherwise `request_info` is popped from the request's meta (removed whether or
not anything is written), nothing is written when it was absent or falsy, and
one json line is appended otherwise. -/
def log_request (st : SchedState) (r : SchedRequest) : SchedState × SchedRequest :=
  if st.log_fp = false then (st, r)
  else
    let r1 : SchedRequest := { r with request_info := none }
    match r.request_info with
    | none => (st, r1)
    | some i => if i = [] then (st, r1) else ({ st with log := st.log ++ [i] }, r1)

/-- `LoggingScheduler.enqueue_request`: a request subject to filtering whose
fingerprint was already seen is dropped — the dupefilter logs to the debug log
only — and `False` is returned; otherwise the fingerprint is recorded (only
when `dont_filter` is false, matching the short-circuit evaluation of
`request.dont_filter and self.df.request_seen(request)`), `log_request` runs,
and the request is pushed to the disk queue when one is present (`_dqpush`)
and to the memory queue otherwise, returning `True`. All rejections are
returned as `False`, never raised. -/
def enqueue_request (st : SchedState) (r : SchedRequest) : SchedState × Bool :=
  if r.dont_filter = false ∧ r.fp ∈ st.seen then (st, false)
  else
    match log_request
        (if r.dont_filter = false then { st with seen := r.fp :: st.seen } else st) r with
    | (st2, r1) =>
      match st2.dqs with
      | some dq => ({ st2 with dqs := some (dq ++ [r1]) }, true)
      | none => ({ st2 with mqs := r1 :: st2.mqs }, true)

/-- Total number of queued requests across the memory and disk queues. -/
def qsize (st : SchedState) : Nat := st.mqs.length + (st.dqs.getD []).length

lemma log_request_frame (st : SchedState) (r : SchedRequest) :
    (log_request st r).1.mqs = st.mqs ∧ (log_request st r).1.dqs = st.dqs ∧
      (log_request st r).2.fp = r.fp := by
  rw [log_request]
  split_ifs with h1
  · exact ⟨rfl, rfl, rfl⟩
  · rcases r.request_info with _ | i
    · exact ⟨rfl, rfl, rfl⟩
    · dsimp only
      split_ifs with h2
      · exact ⟨rfl, rfl, rfl⟩
      · exact ⟨rfl, rfl, rfl⟩

/-- Claim C7: with logging enabled, `log_request` appends exactly one record to
the decision log when and only when the request carries a non-empty
`RequestInfo`, after the call the `RequestInfo` is absent from the request's
meta (so any later queued or persisted representation of the request lacks
it), and requests without a non-empty `RequestInfo` leave the log untouched. -/
theorem claim7_log_exactly_once (st : SchedState) (r : SchedRequest)
    (h : st.log_fp = true) :
    ((log_request st r).2.request_info = none) ∧
    (((log_request st r).1.log.length = st.log.length + 1) ↔
        ∃ i, r.request_info = some i ∧ i ≠ []) ∧
    (∀ i, r.request_info = some i → i ≠ [] →
        (log_request st r).1.log = st.log ++ [i]) ∧
    ((r.request_info = none ∨ r.request_info = some []) →
        (log_request st r).1.log = st.log) := by
  rw [log_request]
  rw [if_neg (by rw [h]; exact fun hc => Bool.noConfusion hc)]
  rcases hri : r.request_info with _ | i
  · refine ⟨rfl, ?_, ?_, fun _ => rfl⟩
    · simp
    · intro i hi; cases hi
  · dsimp only
    by_cases hi : i = []
    · subst hi
      rw [if_pos rfl]
      refine ⟨rfl, by simp, ?_, fun _ => rfl⟩
      intro j hj hne
      cases hj
      exact absurd rfl hne
    · rw [if_neg hi]
      refine ⟨rfl, ?_, ?_, ?_⟩
      · simp only [List.length_append, List.length_singleton, true_iff]
        exact ⟨i, rfl, hi⟩
      · intro j hj _
        cases hj
        rfl
      · rintro (hc | hc)
        · cases hc
        · injection hc with hcc
          exact absurd hcc hi

/-- Claim C7 (witness): a concrete call with an open log and a non-empty
`request_info`. -/
theorem claim7_witness :
    ((log_request ⟨true, [], [], [], none⟩ ⟨false, some [(("url"), ("u"))], 5⟩).2.request_info
        = none) ∧
    (((log_request ⟨true, [], [], [], none⟩ ⟨false, some [(("url"), ("u"))], 5⟩).1.log.length
        = (⟨true, [], [], [], none⟩ : SchedState).log.length + 1) ↔
        ∃ i, (⟨false, some [(("url"), ("u"))], 5⟩ : SchedRequest).request_info = some i ∧
          i ≠ []) ∧
    (∀ i, (⟨false, some [(("url"), ("u"))], 5⟩ : SchedRequest).request_info = some i →
        i ≠ [] →
        (log_request ⟨true, [], [], [], none⟩ ⟨false, some [(("url"), ("u"))], 5⟩).1.log
          = (⟨true, [], [], [], none⟩ : SchedState).log ++ [i]) ∧
    (((⟨false, some [(("url"), ("u"))], 5⟩ : SchedRequest).request_info = none ∨
        (⟨false, some [(("url"), ("u"))], 5⟩ : SchedRequest).request_info = some []) →
        (log_request ⟨true, [], [], [], none⟩ ⟨false, some [(("url"), ("u"))], 5⟩).1.log
          = (⟨true, [], [], [], none⟩ : SchedState).log) :=
  claim7_log_exactly_once ⟨true, [], [], [], none⟩ ⟨false, some [(("url"), ("u"))], 5⟩ rfl

/-- Claim C8: a request subject to deduplication whose fingerprint was already
seen makes `enqueue_request` return false and leaves the scheduler state — the
decision log included — completely unchanged (the rejection is a return value,
not a propagating failure); a request that passes deduplication makes it
return true and is placed into a queue, growing the total queue size by one
with an element carrying the request's fingerprint. -/
theorem claim8_dedup_rejection (st : SchedState) (r : SchedRequest) :
    (r.dont_filter = false → r.fp ∈ st.seen →
        enqueue_request st r = (st, false)) ∧
    ((r.dont_filter = true ∨ r.fp ∉ st.seen) →
        (enqueue_request st r).2 = true ∧
        qsize (enqueue_request st r).1 = qsize st + 1 ∧
        ∃ r1 : SchedRequest, r1.fp = r.fp ∧
          (r1 ∈ (enqueue_request st r).1.mqs ∨
            ∃ dq, (enqueue_request st r).1.dqs = some dq ∧ r1 ∈ dq)) := by
  constructor
  · intro h1 h2
    rw [enqueue_request, if_pos ⟨h1, h2⟩]
  · intro hpass
    have hc : ¬(r.dont_filter = false ∧ r.fp ∈ st.seen) := by
      rintro ⟨hc1, hc2⟩
      rcases hpass with hp | hp
      · rw [hp] at hc1; cases hc1
      · exact hp hc2
    rw [enqueue_request, if_neg hc]
    generalize hst1 :
      (if r.dont_filter = false then { st with seen := r.fp :: st.seen } else st) = st1
    have hq1 : st1.mqs = st.mqs ∧ st1.dqs = st.dqs := by
      rw [← hst1]
      split_ifs <;> exact ⟨rfl, rfl⟩
    obtain ⟨hfm, hfd, hffp⟩ := log_request_frame st1 r
    generalize hlr : log_request st1 r = lr at hfm hfd hffp ⊢
    obtain ⟨l1, l2⟩ := lr
    obtain ⟨lfp, llog, lseen, lmqs, ldqs⟩ := l1
    have hstm : st.mqs = lmqs := (hfm.trans hq1.1).symm
    cases ldqs with
    | none =>
      have hstd : st.dqs = none := by rw [← hq1.2, ← hfd]
      refine ⟨rfl, ?_, ?_⟩
      · simp [qsize, hstm, hstd]
      · exact ⟨l2, hffp, Or.inl (List.mem_cons_self _ _)⟩
    | some dq =>
      have hstd : st.dqs = some dq := by rw [← hq1.2, ← hfd]
      refine ⟨rfl, ?_, ?_⟩
      · simp only [qsize, hstm, hstd, Option.getD_some]
        rw [List.length_append, List.length_singleton]
        omega
      · exact ⟨l2, hffp, Or.inr ⟨dq ++ [l2], rfl, by simp⟩⟩

/-- Claim C8 (witness): a concrete already-seen request subject to filtering is
rejected with the state unchanged. -/
theorem claim8_witness :
    enqueue_request ⟨false, [], [5], [], none⟩ ⟨false, none, 5⟩
      = (⟨false, [], [5], [], none⟩, false) :=
  (claim8_dedup_rejection ⟨false, [], [5], [], none⟩ ⟨false, none, 5⟩).1 rfl
    (by decide)

end LinkdepthModel
